import Mathlib

/-!
Verification of `models/train_classifier.py` (Disaster Response Pipeline).

The program's own code (URL regex masking, token cleaning, the
starting-verb scan, data splitting, model configuration, evaluation
loop, and the command-line entry point) is embedded directly.  External
NLP/ML library routines (`nltk.word_tokenize`, `nltk.sent_tokenize`,
`nltk.pos_tag`, `WordNetLemmatizer.lemmatize`, pandas, scikit-learn
estimators) are abstracted as parameters; small executable models of
them are provided for concrete evaluation.

Strings are modelled as `List Char`; Python `str.lower` and `str.strip`
are modelled on ASCII, which covers every character the program's own
string literals and the claims involve.
-/

namespace DisasterResponse

abbrev Str := List Char

/-! ### The URL regex

`url_regex = "http[s]?://(?:[a-zA-Z]|[0-9]|[$-_@.&+]|[!*\(\),]|(?:%[0-9a-fA-F][0-9a-fA-F]))+"`

Inside a character class `$-_` is the range 0x24..0x5F, which subsumes
`[0-9]`, `[A-Z]`, `@.&+`, `*(),` and `%hh`'s characters; so one
repetition step of the alternation matches exactly one character that is
a lowercase letter, lies in 0x24..0x5F, or is `!`.  A match of the whole
regex therefore is `http://` or `https://` followed by a maximal
nonempty run of such characters, and `re.findall` collects the
non-overlapping matches left to right. -/

def isUrlChar (c : Char) : Bool :=
  (decide ('a' ≤ c) && decide (c ≤ 'z')) ||
  (decide ('$' ≤ c) && decide (c ≤ '_')) ||
  (c == '!')

/-- The maximal run of URL-class characters at the front of a string. -/
def takeRun (cs : Str) : Str := cs.takeWhile isUrlChar

def httpPre : Str := ['h', 't', 't', 'p', ':', '/', '/']

def httpsPre : Str := ['h', 't', 't', 'p', 's', ':', '/', '/']

/-- The regex match attempt at one position: `http[s]?://` followed by a
nonempty maximal run of URL-class characters. -/
def matchUrlAt : Str → Option Str
  | 'h' :: 't' :: 't' :: 'p' :: 's' :: ':' :: '/' :: '/' :: rest =>
      if takeRun rest = [] then none else some (httpsPre ++ takeRun rest)
  | 'h' :: 't' :: 't' :: 'p' :: ':' :: '/' :: '/' :: rest =>
      if takeRun rest = [] then none else some (httpPre ++ takeRun rest)
  | _ => none

/-- Fuelled scan for `re.findall`; each step consumes at least one
character, so fuel `cs.length` always suffices. -/
def findallUrlsF : Nat → Str → List Str
  | _, [] => []
  | 0, _ :: _ => []
  | f + 1, c :: rest =>
    match matchUrlAt (c :: rest) with
    | some m => m :: findallUrlsF f ((c :: rest).drop m.length)
    | none => findallUrlsF f rest

/-- `re.findall(url_regex, text)`: scan left to right, collecting
non-overlapping matches and resuming after each match. -/
def findallUrls (cs : Str) : List Str := findallUrlsF cs.length cs

/-- Fuelled scan for Python `str.replace`. -/
def replaceAllF (pat repl : Str) : Nat → Str → Str
  | _, [] => []
  | 0, cs => cs
  | f + 1, c :: cs =>
    if (c :: cs).take pat.length = pat ∧ pat ≠ [] then
      repl ++ replaceAllF pat repl f ((c :: cs).drop pat.length)
    else
      c :: replaceAllF pat repl f cs

/-- Python `text.replace(pat, repl)`: replace all non-overlapping
occurrences of `pat`, scanning left to right.  (The program only calls
it with nonempty `pat`; the `pat ≠ []` guard keeps the model total.) -/
def replaceAll (pat repl t : Str) : Str := replaceAllF pat repl t.length t

/-- Substring test: `pat` occurs contiguously in the string. -/
def occursIn (pat : Str) : Str → Bool
  | [] => pat.isEmpty
  | c :: cs => ((c :: cs).take pat.length == pat) || occursIn pat cs

/-- `"urlplaceholder"` as a character list. -/
def placeholderL : Str :=
  ['u', 'r', 'l', 'p', 'l', 'a', 'c', 'e', 'h', 'o', 'l', 'd', 'e', 'r']

/-- The URL-masking phase of `tokenize`:
`for url in re.findall(url_regex, text): text = text.replace(url, "urlplaceholder")`. -/
def maskUrls (t : Str) : Str :=
  (findallUrls t).foldl (fun acc u => replaceAll u placeholderL acc) t

/-! ### Python `str.lower` / `str.strip` on ASCII -/

def ucLcPairs : List (Char × Char) :=
  [('A', 'a'), ('B', 'b'), ('C', 'c'), ('D', 'd'), ('E', 'e'), ('F', 'f'),
   ('G', 'g'), ('H', 'h'), ('I', 'i'), ('J', 'j'), ('K', 'k'), ('L', 'l'),
   ('M', 'm'), ('N', 'n'), ('O', 'o'), ('P', 'p'), ('Q', 'q'), ('R', 'r'),
   ('S', 's'), ('T', 't'), ('U', 'u'), ('V', 'v'), ('W', 'w'), ('X', 'x'),
   ('Y', 'y'), ('Z', 'z')]

def lowerChar (c : Char) : Char := (ucLcPairs.lookup c).getD c

def pyLower (cs : Str) : Str := cs.map lowerChar

/-- Characters removed by Python `str.strip()` (ASCII whitespace). -/
def isPySpace (c : Char) : Bool :=
  c == ' ' || c == '\t' || c == '\n' || c == '\x0b' || c == '\x0c' || c == '\r'

def dropRightWhile (p : Char → Bool) (cs : Str) : Str :=
  ((cs.reverse).dropWhile p).reverse

def pyStrip (cs : Str) : Str := dropRightWhile isPySpace (cs.dropWhile isPySpace)

/-- One token's cleaning step: `lemmatizer.lemmatize(tok).lower().strip()`. -/
def cleanTok (lem : Str → Str) (tok : Str) : Str := pyStrip (pyLower (lem tok))

/-- `tokenize(text)`: mask URLs, word-tokenize (`wt` abstracts
`nltk.word_tokenize`), then lemmatize (`lem` abstracts
`WordNetLemmatizer.lemmatize`), lowercase and strip each token. -/
def tokenize (wt : Str → List Str) (lem : Str → Str) (text : Str) : List Str :=
  (wt (maskUrls text)).map (cleanTok lem)

/-! ### `StartingVerbExtractor.starting_verb` -/

/-- The test applied to `pos_tags[0]`:
`first_tag in ['VB', 'VBP'] or first_word == 'RT'`. -/
def firstTokenVerb : List (Str × Str) → Bool
  | [] => false
  | (w, tg) :: _ =>
      tg == ("VB".toList) || tg == ("VBP".toList) || w == ("RT".toList)

/-- The sentence loop of `starting_verb`.  `pt` abstracts
`nltk.pos_tag`; `tok` is the token list fed to it.  `pos_tags[0]` on an
empty tag list raises `IndexError`, modelled as `none`. -/
def svScan (pt : List Str → List (Str × Str)) (tok : Str → List Str) :
    List Str → Option Bool
  | [] => some false
  | s :: rest =>
    match pt (tok s) with
    | [] => none
    | tagged@(_ :: _) =>
        if firstTokenVerb tagged then some true else svScan pt tok rest

/-- `starting_verb(text)`: sentence-tokenize (`st` abstracts
`nltk.sent_tokenize`), then scan the sentences in order, POS-tagging
`tokenize(sentence)` and returning `True` at the first sentence whose
first tagged token passes the check; `False` after the loop. -/
def starting_verb (st : Str → List Str) (pt : List Str → List (Str × Str))
    (wt : Str → List Str) (lem : Str → Str) (text : Str) : Option Bool :=
  svScan pt (tokenize wt lem) (st text)

/-! ### `load_data`

pandas reads the fixed-name table into a DataFrame; the program then
splits it.  A DataFrame is modelled as an ordered column-name list plus
row-major data. -/

structure DataFrame (α : Type) where
  colNames : List String
  rows : List (List α)

/-- `df['message'].values`: the message column, read positionally from
each row (a missing cell is `none`). -/
def dfGetCol {α : Type} (df : DataFrame α) (name : String) : List (Option α) :=
  df.rows.map (fun r => r.get? (df.colNames.indexOf name))

/-- `df.iloc[:, 4:]` for `k = 4`: all columns from positional index `k`
onward. -/
def dfColsFrom {α : Type} (df : DataFrame α) (k : Nat) : DataFrame α :=
  ⟨df.colNames.drop k, df.rows.map (fun r => r.drop k)⟩

/-- `load_data` after the table has been read:
`X = df['message'].values`, `Y = df.iloc[:,4:]`,
`category_names = list(Y.columns)`. -/
def load_data {α : Type} (df : DataFrame α) :
    List (Option α) × DataFrame α × List String :=
  (dfGetCol df "message", dfColsFrom df 4, (dfColsFrom df 4).colNames)

/-! ### `build_model` -/

/-- Scikit-learn estimator expressions, as composed by `build_model`. -/
inductive Estimator where
  | countVectorizer : Estimator
  | tfidfTransformer : Estimator
  | adaBoostClassifier (n_estimators : Nat) : Estimator
  | multiOutputClassifier (inner : Estimator) : Estimator
  | startingVerbExtractor : Estimator
  | pipeline (steps : List (String × Estimator)) : Estimator
  | featureUnion (steps : List (String × Estimator)) : Estimator

/-- `GridSearchCV(pipeline, param_grid=parameters)`: only the two
arguments the program passes are set; `cv` stays at its library default
(`none`) and the returned object is unfit. -/
structure GridSearchCV where
  estimator : Estimator
  param_grid : List (String × List Nat)
  cv : Option Nat
  fitted : Bool

/-- `AdaBoostClassifier()` is constructed with library defaults
(`n_estimators=50`). -/
def adaBoostDefault : Estimator := .adaBoostClassifier 50

def build_pipeline : Estimator :=
  .pipeline
    [("features", .featureUnion
        [("text_pipeline", .pipeline
            [("vect", .countVectorizer), ("tfidf", .tfidfTransformer)]),
         ("starting_verb", .startingVerbExtractor)]),
     ("clf", .multiOutputClassifier adaBoostDefault)]

def build_model : GridSearchCV :=
  { estimator := build_pipeline
    param_grid := [("clf__estimator__n_estimators", [50, 60, 70, 80])]
    cv := none
    fitted := false }

/-! ### `evaluate_model` -/

/-- The two console lines printed per category:
`print("Category:", name, "\n", classification_report(...))` and
`print('Accuracy of %25s: %.2f' % (name, accuracy_score(...)))`. -/
inductive EvalPrint where
  | reportLine (category : String) (body : String) : EvalPrint
  | accuracyLine (category : String) (value : String) : EvalPrint
deriving DecidableEq

def EvalPrint.isReport : EvalPrint → Bool
  | .reportLine _ _ => true
  | .accuracyLine _ _ => false

def EvalPrint.category : EvalPrint → String
  | .reportLine c _ => c
  | .accuracyLine c _ => c

/-- `evaluate_model`'s loop `for i in range(len(category_names))`:
`report i` abstracts `classification_report` on column `i`, `acc i`
abstracts the formatted `accuracy_score`.  The function's only effect is
this print trace; it returns `None`. -/
def evaluate_model (report acc : Nat → String) (category_names : List String) :
    List EvalPrint :=
  (List.range category_names.length).flatMap (fun i =>
    [EvalPrint.reportLine (category_names.getD i "") (report i),
     EvalPrint.accuracyLine (category_names.getD i "") (acc i)])

/-! ### `main` -/

inductive Event where
  | printed (s : String) : Event
  | loadedData (database_filepath : String) : Event
  | builtModel : Event
  | trainedModel : Event
  | evaluated : Event
  | savedModel (model_filepath : String) : Event
deriving DecidableEq

def usageMsg : String :=
  "Please provide the filepath of the disaster messages database " ++
  "as the first argument and the filepath of the pickle file to " ++
  "save the model to as the second argument. \n\nExample: python " ++
  "train_classifier.py ../data/DisasterResponse.db classifier.pkl"

/-- `main()`: `sys.argv` has the script name first, so
`len(sys.argv) == 3` means two positional arguments.  The result is the
event trace and the process exit code (the script falls off the end of
`main` in both branches, so the exit code is 0 either way). -/
def main (argv : List String) : List Event × Nat :=
  match argv with
  | [_, database_filepath, model_filepath] =>
      ([.printed ("Loading data...\n    DATABASE: " ++ database_filepath),
        .loadedData database_filepath,
        .printed "Building model...", .builtModel,
        .printed "Training model...", .trainedModel,
        .printed "Evaluating model...", .evaluated,
        .printed ("Saving model...\n    MODEL: " ++ model_filepath),
        .savedModel model_filepath,
        .printed "Trained model saved!"], 0)
  | _ => ([.printed usageMsg], 0)

/-! ### Concrete models of the external NLP routines

Executable stand-ins used to evaluate the parametric definitions at
concrete inputs.  `splitOnSpace` models `nltk.word_tokenize` as a
whitespace splitter, `sentSplitModel` models `nltk.sent_tokenize` as a
period splitter, `posTagModel` models `nltk.pos_tag` with a small tag
dictionary, and `lemModel` models `WordNetLemmatizer.lemmatize` on the
few (case-sensitive) words the examples use. -/

def splitOnSpace (cs : Str) : List Str :=
  (List.splitOn ' ' cs).filter (fun x => !x.isEmpty)

def joinSpace (ts : List Str) : Str := (ts.intersperse [' ']).flatten

def sentSplitModel (cs : Str) : List Str :=
  (List.splitOn '.' cs).filter (fun x => !x.isEmpty)

def lemId : Str → Str := fun w => w

def lemModel (w : Str) : Str :=
  if w = "dogs".toList then "dog".toList
  else if w = "geese".toList then "goose".toList
  else w

def tagModel (w : Str) : Str :=
  if w = "run".toList then "VB".toList
  else if w = "the".toList then "DT".toList
  else "NN".toList

def posTagModel (toks : List Str) : List (Str × Str) :=
  toks.map (fun w => (w, tagModel w))

/-- An input whose four detected URLs overlap textually: replacing the
first corrupts the third, and replacing the fourth inside the corrupted
third recreates the second. -/
def overlapText : Str :=
  "http://a http://xurlplaceholder http://xhttp://chttp://a http://c".toList

/-! ### Unfolding equations for the fuelled scans -/

theorem matchUrlAt_length_pos {l m : Str} (h : matchUrlAt l = some m) : 0 < m.length := by
  unfold matchUrlAt at h
  split at h
  · split at h
    · exact absurd h (by simp)
    · cases h; simp [httpsPre]
  · split at h
    · exact absurd h (by simp)
    · cases h; simp [httpPre]
  · exact absurd h (by simp)

theorem findallUrlsF_irrel (f : Nat) :
    ∀ (g : Nat) (cs : Str), cs.length ≤ f → cs.length ≤ g →
      findallUrlsF f cs = findallUrlsF g cs := by
  induction f with
  | zero =>
    intro g cs hf _
    have : cs = [] := List.length_eq_zero.mp (Nat.le_zero.mp hf)
    subst this
    cases g <;> rfl
  | succ f ih =>
    intro g cs hf hg
    cases cs with
    | nil => cases g <;> rfl
    | cons c rest =>
      cases g with
      | zero => simp at hg
      | succ g =>
        have hlenf : rest.length ≤ f := by simpa using hf
        have hleng : rest.length ≤ g := by simpa using hg
        cases hm : matchUrlAt (c :: rest) with
        | some m =>
          have hpos := matchUrlAt_length_pos hm
          have hdroplen : ((c :: rest).drop m.length).length ≤ rest.length := by
            simp only [List.length_drop, List.length_cons]
            omega
          simp only [findallUrlsF, hm]
          rw [ih g _ (le_trans hdroplen hlenf) (le_trans hdroplen hleng)]
        | none =>
          simp only [findallUrlsF, hm]
          exact ih g rest hlenf hleng

theorem findallUrlsF_fuel {f : Nat} {cs : Str} (h : cs.length ≤ f) :
    findallUrlsF f cs = findallUrls cs :=
  findallUrlsF_irrel f cs.length cs h (le_refl _)

theorem findallUrls_nil : findallUrls [] = [] := rfl

theorem findallUrls_cons (c : Char) (rest : Str) :
    findallUrls (c :: rest) =
      match matchUrlAt (c :: rest) with
      | some m => m :: findallUrls ((c :: rest).drop m.length)
      | none => findallUrls rest := by
  show findallUrlsF (rest.length + 1) (c :: rest) = _
  cases hm : matchUrlAt (c :: rest) with
  | some m =>
    have hpos := matchUrlAt_length_pos hm
    have hdroplen : ((c :: rest).drop m.length).length ≤ rest.length := by
      simp only [List.length_drop, List.length_cons]
      omega
    simp only [findallUrlsF, hm]
    rw [findallUrlsF_fuel hdroplen]
  | none =>
    simp only [findallUrlsF, hm]
    exact findallUrlsF_fuel (le_refl _)

theorem replaceAllF_irrel (pat repl : Str) (f : Nat) :
    ∀ (g : Nat) (t : Str), t.length ≤ f → t.length ≤ g →
      replaceAllF pat repl f t = replaceAllF pat repl g t := by
  induction f with
  | zero =>
    intro g t hf _
    have : t = [] := List.length_eq_zero.mp (Nat.le_zero.mp hf)
    subst this
    cases g <;> rfl
  | succ f ih =>
    intro g t hf hg
    cases t with
    | nil => cases g <;> rfl
    | cons c cs =>
      cases g with
      | zero => simp at hg
      | succ g =>
        have hlenf : cs.length ≤ f := by simpa using hf
        have hleng : cs.length ≤ g := by simpa using hg
        simp only [replaceAllF]
        split
        · rename_i hcond
          have hpos : 0 < pat.length := by
            cases pat with
            | nil => exact absurd rfl hcond.2
            | cons p ps => simp
          have hdroplen : ((c :: cs).drop pat.length).length ≤ cs.length := by
            simp only [List.length_drop, List.length_cons]
            omega
          rw [ih g _ (le_trans hdroplen hlenf) (le_trans hdroplen hleng)]
        · rw [ih g cs hlenf hleng]

theorem replaceAllF_fuel (pat repl : Str) {f : Nat} {t : Str} (h : t.length ≤ f) :
    replaceAllF pat repl f t = replaceAll pat repl t :=
  replaceAllF_irrel pat repl f t.length t h (le_refl _)

theorem replaceAll_nil (pat repl : Str) : replaceAll pat repl [] = [] := rfl

theorem replaceAll_cons (pat repl : Str) (c : Char) (cs : Str) :
    replaceAll pat repl (c :: cs) =
      if (c :: cs).take pat.length = pat ∧ pat ≠ [] then
        repl ++ replaceAll pat repl ((c :: cs).drop pat.length)
      else
        c :: replaceAll pat repl cs := by
  show replaceAllF pat repl (cs.length + 1) (c :: cs) = _
  simp only [replaceAllF]
  split
  · rename_i hcond
    have hpos : 0 < pat.length := by
      cases pat with
      | nil => exact absurd rfl hcond.2
      | cons p ps => simp
    have hdroplen : ((c :: cs).drop pat.length).length ≤ cs.length := by
      simp only [List.length_drop, List.length_cons]
      omega
    rw [replaceAllF_fuel pat repl hdroplen]
  · rw [replaceAllF_fuel pat repl (le_refl _)]


/-! ### Helper lemmas: the `lower`/`strip` algebra -/

theorem lookup_mem_values {l : List (Char × Char)} {c v : Char}
    (h : l.lookup c = some v) : v ∈ l.map Prod.snd := by
  induction l with
  | nil => simp [List.lookup] at h
  | cons a t ih =>
    obtain ⟨k, w⟩ := a
    cases hc : c == k with
    | true => simp [List.lookup, hc] at h; simp [h]
    | false =>
      simp only [List.lookup, hc] at h
      simpa using Or.inr (ih h)

theorem lookup_mem_keys {l : List (Char × Char)} {c v : Char}
    (h : l.lookup c = some v) : c ∈ l.map Prod.fst := by
  induction l with
  | nil => simp [List.lookup] at h
  | cons a t ih =>
    obtain ⟨k, w⟩ := a
    cases hc : c == k with
    | true => simp_all
    | false =>
      simp only [List.lookup, hc] at h
      simpa using Or.inr (ih h)

theorem lowerChar_idem (c : Char) : lowerChar (lowerChar c) = lowerChar c := by
  unfold lowerChar
  cases h : ucLcPairs.lookup c with
  | none => simp [h]
  | some v =>
    have hv : v ∈ ucLcPairs.map Prod.snd := lookup_mem_values h
    have hnone : ∀ x ∈ ucLcPairs.map Prod.snd, ucLcPairs.lookup x = none := by decide
    simp [h, hnone v hv]

theorem isPySpace_lowerChar (c : Char) : isPySpace (lowerChar c) = isPySpace c := by
  unfold lowerChar
  cases h : ucLcPairs.lookup c with
  | none => simp [h]
  | some v =>
    have hv : v ∈ ucLcPairs.map Prod.snd := lookup_mem_values h
    have hk : c ∈ ucLcPairs.map Prod.fst := lookup_mem_keys h
    have h1 : ∀ x ∈ ucLcPairs.map Prod.snd, isPySpace x = false := by decide
    have h2 : ∀ x ∈ ucLcPairs.map Prod.fst, isPySpace x = false := by decide
    simp [h, h1 v hv, h2 c hk]

theorem pyLower_idem (l : Str) : pyLower (pyLower l) = pyLower l := by
  unfold pyLower
  rw [List.map_map]
  exact List.map_congr_left (fun c _ => lowerChar_idem c)

theorem dropWhile_dropWhile (p : Char → Bool) (l : Str) :
    (l.dropWhile p).dropWhile p = l.dropWhile p := by
  cases h : l.dropWhile p with
  | nil => simp
  | cons a t =>
    have hpa : ¬p a := by
      have h0 : 0 < (l.dropWhile p).length := by rw [h]; simp
      have := List.dropWhile_get_zero_not p l h0
      simpa [h] using this
    simp [List.dropWhile_cons, hpa]

/-- `dropWhile` is a `drop`, hence `dropRightWhile` is a `take`. -/
theorem dropWhile_eq_drop (p : Char → Bool) (l : Str) :
    l.dropWhile p = l.drop (l.takeWhile p).length := by
  calc l.dropWhile p
      = (l.takeWhile p ++ l.dropWhile p).drop (l.takeWhile p).length := by
        rw [List.drop_left]
    _ = l.drop (l.takeWhile p).length := by
        rw [List.takeWhile_append_dropWhile]

theorem dropRightWhile_eq_take (p : Char → Bool) (l : Str) :
    dropRightWhile p l = l.take (l.length - (l.reverse.takeWhile p).length) := by
  unfold dropRightWhile
  rw [dropWhile_eq_drop, List.reverse_drop]
  simp

theorem dropWhile_take_of_dropWhile_eq_self (p : Char → Bool) (l : Str)
    (h : l.dropWhile p = l) (k : Nat) : (l.take k).dropWhile p = l.take k := by
  cases l with
  | nil => simp
  | cons a t =>
    cases k with
    | zero => simp
    | succ k =>
      have hpa : ¬p a := by
        intro hp
        rw [List.dropWhile_cons_of_pos hp] at h
        have := congrArg List.length h
        have hle := (List.dropWhile_sublist (l := t) p).length_le
        simp at this
        omega
      simp [List.dropWhile_cons, hpa]

theorem dropWhile_dropRightWhile_dropWhile (p : Char → Bool) (l : Str) :
    (dropRightWhile p (l.dropWhile p)).dropWhile p = dropRightWhile p (l.dropWhile p) := by
  rw [dropRightWhile_eq_take]
  exact dropWhile_take_of_dropWhile_eq_self p _ (dropWhile_dropWhile p l) _

theorem dropRightWhile_dropRightWhile (p : Char → Bool) (l : Str) :
    dropRightWhile p (dropRightWhile p l) = dropRightWhile p l := by
  unfold dropRightWhile
  rw [List.reverse_reverse, dropWhile_dropWhile]

theorem pyStrip_idem (l : Str) : pyStrip (pyStrip l) = pyStrip l := by
  unfold pyStrip
  rw [dropWhile_dropRightWhile_dropWhile, dropRightWhile_dropRightWhile]

theorem isPySpace_comp_lowerChar : (isPySpace ∘ lowerChar) = isPySpace :=
  funext fun c => by simp [Function.comp, isPySpace_lowerChar]

theorem pyLower_dropWhile (l : Str) :
    (pyLower l).dropWhile isPySpace = pyLower (l.dropWhile isPySpace) := by
  unfold pyLower
  rw [List.dropWhile_map, isPySpace_comp_lowerChar]

theorem pyLower_dropRightWhile (l : Str) :
    dropRightWhile isPySpace (pyLower l) = pyLower (dropRightWhile isPySpace l) := by
  unfold dropRightWhile pyLower
  calc ((l.map lowerChar).reverse.dropWhile isPySpace).reverse
      = ((l.reverse.map lowerChar).dropWhile isPySpace).reverse := by
        rw [List.map_reverse]
    _ = ((l.reverse.dropWhile (isPySpace ∘ lowerChar)).map lowerChar).reverse := by
        rw [List.dropWhile_map]
    _ = ((l.reverse.dropWhile isPySpace).map lowerChar).reverse := by
        rw [isPySpace_comp_lowerChar]
    _ = (l.reverse.dropWhile isPySpace).reverse.map lowerChar := by
        rw [List.map_reverse]

theorem pyLower_pyStrip (l : Str) : pyLower (pyStrip l) = pyStrip (pyLower l) := by
  unfold pyStrip
  rw [pyLower_dropWhile, pyLower_dropRightWhile]

/-- Every cleaned token is a fixed point of `pyLower` (no uppercase). -/
theorem pyLower_cleanTok (lem : Str → Str) (x : Str) :
    pyLower (cleanTok lem x) = cleanTok lem x := by
  unfold cleanTok
  rw [pyLower_pyStrip, pyLower_idem]

/-- Every cleaned token is a fixed point of `pyStrip` (no edge whitespace). -/
theorem pyStrip_cleanTok (lem : Str → Str) (x : Str) :
    pyStrip (cleanTok lem x) = cleanTok lem x := pyStrip_idem _

/-! ### `svScan` lemmas -/

theorem svScan_spec (pt : List Str → List (Str × Str)) (tok : Str → List Str) :
    ∀ ss : List Str, (∀ s ∈ ss, pt (tok s) ≠ []) →
      (svScan pt tok ss = some true ↔ ∃ s ∈ ss, firstTokenVerb (pt (tok s)) = true) := by
  intro ss
  induction ss with
  | nil => intro _; simp [svScan]
  | cons s rest ih =>
    intro h
    cases hp : pt (tok s) with
    | nil => exact absurd hp (h s (by simp))
    | cons a tl =>
      have ihr := ih (fun x hx => h x (by simp [hx]))
      by_cases hf : firstTokenVerb (a :: tl) = true
      · constructor
        · intro _
          exact ⟨s, by simp, by rw [hp]; exact hf⟩
        · intro _
          show svScan pt tok (s :: rest) = some true
          simp [svScan, hp, hf]
      · have hstep : svScan pt tok (s :: rest) = svScan pt tok rest := by
          simp [svScan, hp, hf]
        rw [hstep, ihr]
        constructor
        · intro ⟨x, hx, hfx⟩
          exact ⟨x, by simp [hx], hfx⟩
        · intro ⟨x, hx, hfx⟩
          rcases List.mem_cons.mp hx with rfl | hx2
          · rw [hp] at hfx
            exact absurd hfx hf
          · exact ⟨x, hx2, hfx⟩

/-! ### Claim theorems -/

/-- C9: `starting_verb` returns `some true` iff some sentence of the
input, scanned in order, has a first tagged token whose POS tag is
`VB`/`VBP` or whose text is `RT`; and on an input with no sentences it
returns `some false` (no error). -/
theorem starting_verb_iff_some_sentence (st : Str → List Str)
    (pt : List Str → List (Str × Str)) (wt : Str → List Str) (lem : Str → Str)
    (text : Str) (h : ∀ s ∈ st text, pt (tokenize wt lem s) ≠ []) :
    (starting_verb st pt wt lem text = some true ↔
      ∃ s ∈ st text, firstTokenVerb (pt (tokenize wt lem s)) = true)
    ∧ (st text = [] → starting_verb st pt wt lem text = some false) := by
  constructor
  · exact svScan_spec pt (tokenize wt lem) (st text) h
  · intro he
    unfold starting_verb
    rw [he]
    rfl

theorem starting_verb_iff_some_sentence_witness :
    starting_verb sentSplitModel posTagModel splitOnSpace lemId
      ("Run to the shelter now".toList) = some true := by
  have h := starting_verb_iff_some_sentence sentSplitModel posTagModel
    splitOnSpace lemId ("Run to the shelter now".toList) (by decide)
  exact h.1.mpr ⟨"Run to the shelter now".toList, by decide, by decide⟩

/-- C1 counterexample: on a two-sentence input whose first sentence
fails the tag check, `starting_verb` nevertheless returns `some true`
from the second sentence — it does fall back to later sentences, so the
result is not determined by the first sentence alone. -/
theorem starting_verb_first_sentence_cex :
    sentSplitModel ("The shelter is full. Run to the shelter now".toList) =
      ["The shelter is full".toList, " Run to the shelter now".toList]
    ∧ firstTokenVerb (posTagModel
        (tokenize splitOnSpace lemId ("The shelter is full".toList))) = false
    ∧ starting_verb sentSplitModel posTagModel splitOnSpace lemId
        ("The shelter is full. Run to the shelter now".toList) = some true := by
  refine ⟨by decide, by decide, by decide⟩

/-- C1 (amended): `starting_verb` returns `some true` when the first
sentence passes the tag check, but when the first sentence fails it
falls back and continues the scan on the remaining sentences (returning
`some false` only after every sentence fails). -/
theorem starting_verb_fallback (st : Str → List Str)
    (pt : List Str → List (Str × Str)) (wt : Str → List Str) (lem : Str → Str)
    (text : Str) (s : Str) (rest : List Str) (hs : st text = s :: rest)
    (hne : pt (tokenize wt lem s) ≠ []) :
    (firstTokenVerb (pt (tokenize wt lem s)) = true →
      starting_verb st pt wt lem text = some true)
    ∧ (firstTokenVerb (pt (tokenize wt lem s)) = false →
      starting_verb st pt wt lem text = svScan pt (tokenize wt lem) rest) := by
  unfold starting_verb
  rw [hs]
  cases hp : pt (tokenize wt lem s) with
  | nil => exact absurd hp hne
  | cons a tl =>
    constructor
    · intro htrue
      simp [svScan, hp, htrue]
    · intro hfalse
      simp [svScan, hp, hfalse]

theorem starting_verb_fallback_witness :
    starting_verb sentSplitModel posTagModel splitOnSpace lemId
        ("The shelter is full. Run to the shelter now".toList) =
      svScan posTagModel (tokenize splitOnSpace lemId)
        [" Run to the shelter now".toList] := by
  have h := starting_verb_fallback sentSplitModel posTagModel splitOnSpace lemId
    ("The shelter is full. Run to the shelter now".toList)
    ("The shelter is full".toList) [" Run to the shelter now".toList]
    (by decide) (by decide)
  exact h.2 (by decide)

/-- C10 counterexample: the output token `geese` (from input token
`Geese`, lemmatized before lowercasing) is not a fixed point of
normalize-after-lemmatize: its own lowercased, stripped lemma is
`goose`. -/
theorem tokenize_token_not_own_lemma_cex :
    tokenize splitOnSpace lemModel ("Geese flew".toList) =
      ["geese".toList, "flew".toList]
    ∧ pyStrip (pyLower (lemModel ("geese".toList))) = "goose".toList := by
  refine ⟨by decide, by decide⟩

/-- C10 (amended): every returned token is the stripped lowercasing of
the lemma of the corresponding word token (one output entry per word
token of the masked text), hence is a fixed point of lowercasing and of
stripping; but, lemmatization being applied before lowercasing, a token
need not equal its *own* lowercased stripped lemma. -/
theorem tokenize_tokens_normalized (wt : Str → List Str) (lem : Str → Str)
    (t : Str) :
    tokenize wt lem t = (wt (maskUrls t)).map (cleanTok lem)
    ∧ (tokenize wt lem t).length = (wt (maskUrls t)).length
    ∧ ∀ y ∈ tokenize wt lem t, pyLower y = y ∧ pyStrip y = y := by
  refine ⟨rfl, by simp [tokenize], ?_⟩
  intro y hy
  simp only [tokenize, List.mem_map] at hy
  obtain ⟨x, _, rfl⟩ := hy
  exact ⟨pyLower_cleanTok lem x, pyStrip_cleanTok lem x⟩

/-- C5: `load_data` returns `X` as the `message` column of the table,
`Y` as all columns from positional index 4 onward, and the
category-name list as exactly `Y`'s ordered column names. -/
theorem load_data_split {α : Type} (df : DataFrame α) :
    (load_data df).1 = df.rows.map (fun r => r.get? (df.colNames.indexOf "message"))
    ∧ (load_data df).2.1.colNames = df.colNames.drop 4
    ∧ (load_data df).2.1.rows = df.rows.map (fun r => r.drop 4)
    ∧ (load_data df).2.2 = (load_data df).2.1.colNames
    ∧ (load_data df).2.2.length = df.colNames.length - 4 := by
  refine ⟨rfl, rfl, rfl, rfl, ?_⟩
  simp [load_data, dfColsFrom]

/-- C6: `build_model` returns an unfit grid search over exactly one
hyperparameter — the boosted classifier's ensemble size, reached through
the pipeline path `clf__estimator__n_estimators` — with candidate values
50, 60, 70, 80 and default cross-validation. -/
theorem build_model_grid :
    build_model.param_grid = [("clf__estimator__n_estimators", [50, 60, 70, 80])]
    ∧ build_model.param_grid.length = 1
    ∧ build_model.cv = none
    ∧ build_model.fitted = false
    ∧ build_model.estimator = build_pipeline :=
  ⟨rfl, rfl, rfl, rfl, rfl⟩

/-- C7: with an argument count other than the expected one (script name
plus two positional arguments), `main` only prints the usage message —
no loading, training or saving events — and exits with code 0, the same
code as the success path. -/
theorem main_wrong_argc (argv : List String) (h : argv.length ≠ 3) :
    main argv = ([Event.printed usageMsg], 0) := by
  match argv with
  | [] => rfl
  | [_] => rfl
  | [_, _] => rfl
  | [_, _, _] => simp at h
  | _ :: _ :: _ :: _ :: _ => rfl

theorem main_wrong_argc_witness :
    main ["train_classifier.py"] = ([Event.printed usageMsg], 0) :=
  main_wrong_argc ["train_classifier.py"] (by decide)

theorem filter_isReport_flatMap (F G : Nat → EvalPrint)
    (hF : ∀ i, (F i).isReport = true) (hG : ∀ i, (G i).isReport = false) :
    ∀ n, ((List.range n).flatMap (fun i => [F i, G i])).filter EvalPrint.isReport
      = (List.range n).map F := by
  intro n
  induction n with
  | zero => rfl
  | succ n ih =>
    rw [List.range_succ]
    simp [List.filter_append, ih, hF, hG]

theorem length_flatMap_pairs (F G : Nat → EvalPrint) :
    ∀ n, ((List.range n).flatMap (fun i => [F i, G i])).length = 2 * n := by
  intro n
  induction n with
  | zero => rfl
  | succ n ih =>
    rw [List.range_succ]
    simp [ih]
    omega

theorem range_map_getD {α : Type} (l : List α) (d : α) :
    (List.range l.length).map (fun i => l.getD i d) = l := by
  apply List.ext_getElem
  · simp
  · intro i h1 h2
    simp only [List.getElem_map, List.getElem_range]
    rw [List.getD_eq_getElem l d h2]

/-- C8: `evaluate_model` prints exactly one classification report per
category (paired with that category's accuracy line, giving two lines
per category) and the report lines carry the category names in order;
its result is only this print trace. -/
theorem evaluate_model_reports (report acc : Nat → String)
    (category_names : List String) :
    ((evaluate_model report acc category_names).filter
        EvalPrint.isReport).map EvalPrint.category = category_names
    ∧ (evaluate_model report acc category_names).length
        = 2 * category_names.length := by
  constructor
  · unfold evaluate_model
    rw [filter_isReport_flatMap
      (fun i => .reportLine (category_names.getD i "") (report i))
      (fun i => .accuracyLine (category_names.getD i "") (acc i))
      (fun _ => rfl) (fun _ => rfl)]
    rw [List.map_map]
    exact range_map_getD category_names ""
  · exact length_flatMap_pairs _ _ _

/-- C3 counterexample: on the empty input `tokenize` returns the empty
token list, not a non-empty list of placeholders. -/
theorem tokenize_empty_cex : tokenize splitOnSpace lemId [] = [] := by decide

/-- C3 (amended): the empty input yields the empty token list; an input
consisting exactly of URL text (a single regex match covering the whole
string) yields the one-element list holding the placeholder token. -/
theorem tokenize_empty_or_url_only (wt : Str → List Str) (lem : Str → Str)
    (h0 : wt [] = []) (hp : wt placeholderL = [placeholderL])
    (hl : lem placeholderL = placeholderL) :
    tokenize wt lem [] = []
    ∧ ∀ t : Str, findallUrls t = [t] → tokenize wt lem t = [placeholderL] := by
  constructor
  · unfold tokenize maskUrls
    rw [findallUrls_nil]
    simp [h0]
  · intro t ht
    have hne : t ≠ [] := by
      intro he
      rw [he, findallUrls_nil] at ht
      exact absurd ht (by simp)
    have hmask : maskUrls t = placeholderL := by
      unfold maskUrls
      rw [ht]
      show replaceAll t placeholderL t = placeholderL
      cases t with
      | nil => exact absurd rfl hne
      | cons c cs =>
        rw [replaceAll_cons, if_pos ⟨List.take_length _, by simp⟩]
        simp [replaceAll_nil]
    unfold tokenize
    rw [hmask, hp]
    have : cleanTok lem placeholderL = placeholderL := by
      unfold cleanTok
      rw [hl]
      decide
    simp [this]

theorem tokenize_empty_or_url_only_witness :
    tokenize splitOnSpace lemId [] = []
    ∧ tokenize splitOnSpace lemId ("https://ex.com".toList) = [placeholderL] := by
  have h := tokenize_empty_or_url_only splitOnSpace lemId
    (by decide) (by decide) rfl
  exact ⟨h.1, h.2 _ (by decide)⟩

/-- C4 counterexample: `tokenize` is not idempotent.  Input `DOGS`
tokenizes to `dogs` (the uppercase form is not lemmatized, then gets
lowercased), but re-tokenizing the joined output lemmatizes `dogs` to
`dog`. -/
theorem tokenize_not_idempotent_cex :
    tokenize splitOnSpace lemModel ("DOGS".toList) = ["dogs".toList]
    ∧ tokenize splitOnSpace lemModel
        (joinSpace (tokenize splitOnSpace lemModel ("DOGS".toList)))
      = ["dog".toList]
    ∧ tokenize splitOnSpace lemModel
        (joinSpace (tokenize splitOnSpace lemModel ("DOGS".toList)))
      ≠ tokenize splitOnSpace lemModel ("DOGS".toList) := by
  refine ⟨by decide, by decide, by decide⟩

/-- C4 (amended): re-tokenizing the space-joined output of `tokenize`
reproduces that output provided the word tokenizer round-trips on the
joined cleaned tokens, the joined output contains no URL matches, and
the lemmatizer fixes every cleaned token (the property that fails in the
counterexample, lemmatization being applied before lowercasing). -/
theorem tokenize_idempotent_conditional (wt : Str → List Str) (lem : Str → Str)
    (t : Str)
    (hA : findallUrls (joinSpace (tokenize wt lem t)) = [])
    (hB : wt (joinSpace (tokenize wt lem t)) = tokenize wt lem t)
    (hC : ∀ x ∈ wt (maskUrls t), lem (cleanTok lem x) = cleanTok lem x) :
    tokenize wt lem (joinSpace (tokenize wt lem t)) = tokenize wt lem t := by
  have hmask : maskUrls (joinSpace (tokenize wt lem t))
      = joinSpace (tokenize wt lem t) := by
    unfold maskUrls
    rw [hA]
    rfl
  show (wt (maskUrls (joinSpace (tokenize wt lem t)))).map (cleanTok lem) = _
  rw [hmask, hB]
  show ((wt (maskUrls t)).map (cleanTok lem)).map (cleanTok lem) = _
  rw [List.map_map]
  apply List.map_congr_left
  intro x hx
  show cleanTok lem (cleanTok lem x) = cleanTok lem x
  unfold cleanTok
  rw [show lem (pyStrip (pyLower (lem x))) = pyStrip (pyLower (lem x)) from hC x hx]
  rw [show pyStrip (pyLower (lem x)) = cleanTok lem x from rfl,
    pyLower_cleanTok, pyStrip_cleanTok]

theorem tokenize_idempotent_conditional_witness :
    tokenize splitOnSpace lemId
        (joinSpace (tokenize splitOnSpace lemId
          ("check http://example.com now".toList)))
      = tokenize splitOnSpace lemId ("check http://example.com now".toList) :=
  tokenize_idempotent_conditional splitOnSpace lemId
    ("check http://example.com now".toList)
    (by decide) (by decide) (fun x _ => rfl)

/-! ### C2: analysis of the URL-masking phase -/

theorem take_append_exact (xs ys : Str) (k : Nat) :
    (xs ++ ys).take (xs.length + k) = xs ++ ys.take k := by
  induction xs with
  | nil => simp
  | cons x xs ih =>
    simp only [List.cons_append, List.length_cons]
    rw [show xs.length + 1 + k = (xs.length + k) + 1 by omega]
    simp only [List.take_succ_cons]
    rw [ih]

theorem drop_append_exact (xs ys : Str) (k : Nat) :
    (xs ++ ys).drop (xs.length + k) = ys.drop k := by
  induction xs with
  | nil => simp
  | cons x xs ih =>
    simp only [List.cons_append, List.length_cons]
    rw [show xs.length + 1 + k = (xs.length + k) + 1 by omega]
    simp only [List.drop_succ_cons]
    exact ih

theorem take_takeWhile_length (p : Char → Bool) (l : Str) :
    l.take (l.takeWhile p).length = l.takeWhile p := by
  induction l with
  | nil => rfl
  | cons c cs ih =>
    by_cases hp : p c
    · rw [List.takeWhile_cons_of_pos hp]
      simpa using ih
    · rw [List.takeWhile_cons_of_neg hp]
      rfl

theorem take_takeRun_length (l : Str) : l.take (takeRun l).length = takeRun l := by
  unfold takeRun
  exact take_takeWhile_length isUrlChar l

theorem dropRun_eq (l : Str) :
    l.drop (takeRun l).length = l.dropWhile isUrlChar := by
  unfold takeRun
  rw [← dropWhile_eq_drop]

/-- Characterization of `occursIn` by occurrence positions. -/
theorem occursIn_iff (pat : Str) :
    ∀ s : Str, occursIn pat s = true ↔ ∃ i, (s.drop i).take pat.length = pat := by
  intro s
  induction s with
  | nil =>
    simp only [occursIn, List.isEmpty_iff]
    constructor
    · intro h
      exact ⟨0, by simp [h]⟩
    · intro ⟨i, hi⟩
      simp only [List.drop_nil, List.take_nil] at hi
      exact hi.symm
  | cons c cs ih =>
    simp only [occursIn, Bool.or_eq_true, beq_iff_eq]
    constructor
    · intro h
      rcases h with h | h
      · exact ⟨0, by simpa using h⟩
      · obtain ⟨i, hi⟩ := ih.mp h
        exact ⟨i + 1, by simpa using hi⟩
    · intro ⟨i, hi⟩
      cases i with
      | zero => exact Or.inl (by simpa using hi)
      | succ i => exact Or.inr (ih.mpr ⟨i, by simpa using hi⟩)

/-- Full description of a successful regex match attempt: the match is
`http(s)://` plus a nonempty run of URL-class characters, it is a prefix
of the input, and the input's next character after it (if any) is not a
URL-class character. -/
theorem matchUrlAt_some_spec {l m : Str} (h : matchUrlAt l = some m) :
    ∃ pre ρ, (pre = httpPre ∨ pre = httpsPre) ∧ m = pre ++ ρ ∧ ρ ≠ []
      ∧ (∀ c ∈ ρ, isUrlChar c = true)
      ∧ l.take m.length = m
      ∧ (∀ c cs', l.drop m.length = c :: cs' → isUrlChar c = false) := by
  unfold matchUrlAt at h
  split at h
  case _ rest =>
    split at h
    · exact absurd h (by simp)
    · rename_i hrun
      cases h
      refine ⟨httpsPre, takeRun rest, Or.inr rfl, rfl, hrun, ?_, ?_, ?_⟩
      · intro c hc
        exact List.mem_takeWhile_imp hc
      · show (httpsPre ++ rest).take (httpsPre ++ takeRun rest).length
          = httpsPre ++ takeRun rest
        rw [List.length_append, take_append_exact, take_takeRun_length]
      · intro c cs' hdrop
        have hdrop2 : (httpsPre ++ rest).drop (httpsPre ++ takeRun rest).length
            = c :: cs' := hdrop
        rw [List.length_append, drop_append_exact, dropRun_eq] at hdrop2
        have h0 : 0 < (rest.dropWhile isUrlChar).length := by rw [hdrop2]; simp
        have := List.dropWhile_get_zero_not isUrlChar rest h0
        simpa [hdrop2] using this
  case _ rest =>
    split at h
    · exact absurd h (by simp)
    · rename_i hrun
      cases h
      refine ⟨httpPre, takeRun rest, Or.inl rfl, rfl, hrun, ?_, ?_, ?_⟩
      · intro c hc
        exact List.mem_takeWhile_imp hc
      · show (httpPre ++ rest).take (httpPre ++ takeRun rest).length
          = httpPre ++ takeRun rest
        rw [List.length_append, take_append_exact, take_takeRun_length]
      · intro c cs' hdrop
        have hdrop2 : (httpPre ++ rest).drop (httpPre ++ takeRun rest).length
            = c :: cs' := hdrop
        rw [List.length_append, drop_append_exact, dropRun_eq] at hdrop2
        have h0 : 0 < (rest.dropWhile isUrlChar).length := by rw [hdrop2]; simp
        have := List.dropWhile_get_zero_not isUrlChar rest h0
        simpa [hdrop2] using this
  · exact absurd h (by simp)

theorem httpPre_urlChars : ∀ c ∈ httpPre, isUrlChar c = true := by decide

theorem httpsPre_urlChars : ∀ c ∈ httpsPre, isUrlChar c = true := by decide

/-- A string of the matched shape makes the regex match attempt succeed,
whatever follows it. -/
theorem matchUrlAt_append_ne_none (pre ρ rest' : Str)
    (hpre : pre = httpPre ∨ pre = httpsPre) (hρ : ρ ≠ [])
    (hρu : ∀ c ∈ ρ, isUrlChar c = true) :
    matchUrlAt (pre ++ ρ ++ rest') ≠ none := by
  cases ρ with
  | nil => exact absurd rfl hρ
  | cons r0 ρ' =>
    have hr0 : isUrlChar r0 = true := hρu r0 (by simp)
    have hrun : takeRun (r0 :: (ρ' ++ rest')) ≠ [] := by
      unfold takeRun
      rw [List.takeWhile_cons_of_pos hr0]
      simp
    rcases hpre with rfl | rfl
    · show matchUrlAt ('h' :: 't' :: 't' :: 'p' :: ':' :: '/' :: '/'
        :: (r0 :: (ρ' ++ rest'))) ≠ none
      simp only [matchUrlAt]
      rw [if_neg hrun]
      simp
    · show matchUrlAt ('h' :: 't' :: 't' :: 'p' :: 's' :: ':' :: '/' :: '/'
        :: (r0 :: (ρ' ++ rest'))) ≠ none
      simp only [matchUrlAt]
      rw [if_neg hrun]
      simp

/-- If `findallUrls` finds nothing, no position matches. -/
theorem findallUrls_eq_nil (s : Str) (h : findallUrls s = []) :
    ∀ i, matchUrlAt (s.drop i) = none := by
  induction s with
  | nil => intro i; simp [matchUrlAt]
  | cons c rest ih =>
    rw [findallUrls_cons] at h
    cases hm : matchUrlAt (c :: rest) with
    | some m => rw [hm] at h; simp at h
    | none =>
      rw [hm] at h
      intro i
      cases i with
      | zero => exact hm
      | succ i => exact ih h i

/-- Decomposition of a string on which `findallUrls` finds exactly one
match: the text splits as `a ++ u ++ b`, no position inside `a` matches,
the match at `a`'s end is exactly `u`, and no position of `b` matches. -/
theorem findallUrls_single {u : Str} :
    ∀ t : Str, findallUrls t = [u] →
      ∃ a b : Str, t = a ++ u ++ b
        ∧ (∀ i < a.length, matchUrlAt (t.drop i) = none)
        ∧ matchUrlAt (u ++ b) = some u
        ∧ (∀ j, matchUrlAt (b.drop j) = none) := by
  intro t
  induction t with
  | nil => intro h; rw [findallUrls_nil] at h; simp at h
  | cons c rest ih =>
    intro h
    rw [findallUrls_cons] at h
    cases hm : matchUrlAt (c :: rest) with
    | some m =>
      rw [hm] at h
      simp only [List.cons.injEq] at h
      obtain ⟨hmu, hrest⟩ := h
      subst hmu
      obtain ⟨pre, ρ, hpre, hshape, hρ, hρu, htake, hafter⟩ := matchUrlAt_some_spec hm
      have hdecomp : c :: rest = m ++ (c :: rest).drop m.length := by
        conv_lhs => rw [← List.take_append_drop m.length (c :: rest)]
        rw [htake]
      refine ⟨[], (c :: rest).drop m.length, by simpa using hdecomp, by simp, ?_, ?_⟩
      · rw [← hdecomp]; exact hm
      · exact findallUrls_eq_nil _ hrest
    | none =>
      rw [hm] at h
      obtain ⟨a, b, hdecomp, hnone, hmatch, hb⟩ := ih h
      refine ⟨c :: a, b, by simp [hdecomp], ?_, hmatch, hb⟩
      intro i hi
      cases i with
      | zero => exact hm
      | succ i =>
        simp only [List.drop_succ_cons]
        rw [hdecomp] at hnone ⊢
        exact hnone i (by simpa using hi)

/-- Shape of the unique match: `http(s)://` plus a nonempty URL-char
run, with `b` starting (if at all) with a non-URL character. -/
theorem matchUrl_self_shape {u b : Str} (h : matchUrlAt (u ++ b) = some u) :
    ∃ pre ρ, (pre = httpPre ∨ pre = httpsPre) ∧ u = pre ++ ρ ∧ ρ ≠ []
      ∧ (∀ c ∈ ρ, isUrlChar c = true)
      ∧ (∀ c cs', b = c :: cs' → isUrlChar c = false) := by
  obtain ⟨pre, ρ, hpre, hshape, hρ, hρu, _, hafter⟩ := matchUrlAt_some_spec h
  refine ⟨pre, ρ, hpre, hshape, hρ, hρu, ?_⟩
  intro c cs' hb
  apply hafter c cs'
  have hd : (u ++ b).drop u.length = b := by
    have := drop_append_exact u b 0
    simpa using this
  rw [hd, hb]

theorem url_chars {u : Str} (pre ρ : Str) (hpre : pre = httpPre ∨ pre = httpsPre)
    (hshape : u = pre ++ ρ) (hρu : ∀ c ∈ ρ, isUrlChar c = true) :
    ∀ c ∈ u, isUrlChar c = true := by
  intro c hc
  rw [hshape] at hc
  rcases List.mem_append.mp hc with hc | hc
  · rcases hpre with rfl | rfl
    · exact httpPre_urlChars c hc
    · exact httpsPre_urlChars c hc
  · exact hρu c hc

theorem url_ne_nil {u : Str} (pre ρ : Str)
    (hpre : pre = httpPre ∨ pre = httpsPre) (hshape : u = pre ++ ρ) : u ≠ [] := by
  rcases hpre with rfl | rfl <;> (rw [hshape]; simp [httpPre, httpsPre])

theorem url_take_two {u : Str} (pre ρ : Str)
    (hpre : pre = httpPre ∨ pre = httpsPre) (hshape : u = pre ++ ρ) :
    u.take 2 = ['h', 't'] := by
  rcases hpre with rfl | rfl <;> (rw [hshape]; rfl)

theorem url_length_ge {u : Str} (pre ρ : Str)
    (hpre : pre = httpPre ∨ pre = httpsPre) (hshape : u = pre ++ ρ)
    (hρ : ρ ≠ []) : 8 ≤ u.length := by
  have hρ1 : 1 ≤ ρ.length := by
    cases ρ with
    | nil => exact absurd rfl hρ
    | cons _ _ => simp
  rcases hpre with rfl | rfl
  · rw [hshape, List.length_append]
    have h7 : httpPre.length = 7 := rfl
    omega
  · rw [hshape, List.length_append]
    have h8 : httpsPre.length = 8 := rfl
    omega

/-- Any occurrence of the matched-shape string `u` makes the regex match
at that position. -/
theorem matchUrlAt_ne_none_of_take {u : Str} (pre ρ : Str)
    (hpre : pre = httpPre ∨ pre = httpsPre) (hshape : u = pre ++ ρ) (hρ : ρ ≠ [])
    (hρu : ∀ c ∈ ρ, isUrlChar c = true) (s : Str) (hocc : s.take u.length = u) :
    matchUrlAt s ≠ none := by
  have hs : s = u ++ s.drop u.length := by
    conv_lhs => rw [← List.take_append_drop u.length s]
    rw [hocc]
  rw [hs, hshape]
  exact matchUrlAt_append_ne_none pre ρ _ hpre hρ hρu

/-- In the single-match decomposition, `u` occurs only at position
`a.length`. -/
theorem single_url_unique_occ {u a b : Str} (pre ρ : Str)
    (hpre : pre = httpPre ∨ pre = httpsPre) (hshape : u = pre ++ ρ)
    (hρ : ρ ≠ []) (hρu : ∀ c ∈ ρ, isUrlChar c = true)
    (hafter : ∀ c cs', b = c :: cs' → isUrlChar c = false)
    (hnone : ∀ i < a.length, matchUrlAt ((a ++ u ++ b).drop i) = none)
    (hbm : ∀ j, matchUrlAt (b.drop j) = none) :
    ∀ i, ((a ++ u ++ b).drop i).take u.length = u → i = a.length := by
  intro i hocc
  rcases Nat.lt_trichotomy i a.length with hi | hi | hi
  · exact absurd (hnone i hi)
      (matchUrlAt_ne_none_of_take pre ρ hpre hshape hρ hρu _ hocc)
  · exact hi
  · exfalso
    rcases Nat.lt_or_ge i (a.length + u.length) with hi2 | hi2
    · -- the occurrence would overlap the match itself
      obtain ⟨d, rfl⟩ : ∃ d, i = a.length + d := ⟨i - a.length, by omega⟩
      have hd0 : 0 < d := by omega
      have hdu : d < u.length := by omega
      have hdrop : (a ++ u ++ b).drop (a.length + d) = u.drop d ++ b := by
        rw [List.append_assoc, drop_append_exact a (u ++ b) d,
          List.drop_append_of_le_length (le_of_lt hdu)]
      rw [hdrop] at hocc
      have hlen1 : (u.drop d).length = u.length - d := by simp
      have htk : (u.drop d ++ b).take u.length = u.drop d ++ b.take d := by
        have h1 := take_append_exact (u.drop d) b d
        rw [hlen1] at h1
        rw [show u.length = (u.length - d) + d by omega]
        exact h1
      rw [htk] at hocc
      have hbtk : (b.take d).length = d := by
        have hlocc := congrArg List.length hocc
        simp only [List.length_append, hlen1] at hlocc
        have hble := List.length_take_le d b
        omega
      have hbne : b ≠ [] := by
        intro hbnil
        rw [hbnil] at hbtk
        simp at hbtk
        omega
      obtain ⟨c, cs', rfl⟩ := List.exists_cons_of_ne_nil hbne
      have hcu : isUrlChar c = false := hafter c cs' rfl
      have hcmem : c ∈ u := by
        rw [← hocc]
        apply List.mem_append_right
        rw [show (c :: cs').take d = c :: cs'.take (d - 1) from by
          rw [show d = (d - 1) + 1 by omega]
          simp]
        simp
      have := url_chars pre ρ hpre hshape hρu c hcmem
      rw [this] at hcu
      exact absurd hcu (by simp)
    · -- the occurrence would lie inside `b`
      obtain ⟨j, rfl⟩ : ∃ j, i = a.length + u.length + j :=
        ⟨i - (a.length + u.length), by omega⟩
      have hdrop : (a ++ u ++ b).drop (a.length + u.length + j) = b.drop j := by
        have h1 := drop_append_exact (a ++ u) b j
        rw [List.length_append] at h1
        exact h1
      rw [hdrop] at hocc
      exact absurd (hbm j)
        (matchUrlAt_ne_none_of_take pre ρ hpre hshape hρ hρu _ hocc)

/-- `str.replace` leaves a string with no occurrence of the pattern
unchanged. -/
theorem replaceAll_of_no_occ (pat repl : Str) :
    ∀ s : Str, (∀ i, (s.drop i).take pat.length ≠ pat) →
      replaceAll pat repl s = s := by
  intro s
  induction s with
  | nil => intro _; exact replaceAll_nil pat repl
  | cons c cs ih =>
    intro h
    rw [replaceAll_cons,
      if_neg (fun hcond => h 0 (by simpa using hcond.1)),
      ih (fun i => by simpa using h (i + 1))]

/-- `str.replace` on a string with exactly one occurrence of the
pattern replaces exactly it. -/
theorem replaceAll_single_occ (pat repl : Str) (hpat : pat ≠ []) :
    ∀ a b : Str,
      (∀ i, ((a ++ pat ++ b).drop i).take pat.length = pat → i = a.length) →
      replaceAll pat repl (a ++ pat ++ b) = a ++ repl ++ b := by
  intro a
  induction a with
  | nil =>
    intro b huniq
    obtain ⟨p0, ps, rfl⟩ := List.exists_cons_of_ne_nil hpat
    have hbno : ∀ j, (b.drop j).take (p0 :: ps).length ≠ p0 :: ps := by
      intro j hj
      have htr : (([] ++ (p0 :: ps) ++ b).drop ((p0 :: ps).length + j)).take
          (p0 :: ps).length = p0 :: ps := by
        rw [List.nil_append, drop_append_exact (p0 :: ps) b j]
        exact hj
      have := huniq _ htr
      simp at this
    have htake : (p0 :: (ps ++ b)).take (p0 :: ps).length = p0 :: ps := by
      rw [← List.cons_append]
      exact List.take_left _ _
    have hdrop : (p0 :: (ps ++ b)).drop (p0 :: ps).length = b := by
      rw [← List.cons_append]
      exact List.drop_left _ _
    show replaceAll (p0 :: ps) repl (p0 :: (ps ++ b)) = [] ++ repl ++ b
    rw [replaceAll_cons, if_pos ⟨htake, by simp⟩, hdrop,
      replaceAll_of_no_occ _ _ b hbno]
    simp
  | cons c a' ih =>
    intro b huniq
    have hstep : ∀ i, ((a' ++ pat ++ b).drop i).take pat.length = pat →
        i = a'.length := by
      intro i hi
      have h2 := huniq (i + 1) (by
        have he : ((c :: a') ++ pat ++ b).drop (i + 1) = (a' ++ pat ++ b).drop i := by
          simp
        rw [he]
        exact hi)
      simpa using h2
    have hocc0 : ¬((c :: a') ++ pat ++ b).take pat.length = pat := by
      intro h0
      have := huniq 0 (by simpa using h0)
      simp at this
    show replaceAll pat repl (c :: (a' ++ pat ++ b)) = (c :: a') ++ repl ++ b
    rw [replaceAll_cons,
      if_neg (fun hcond => hocc0 (by
        have he : ((c :: a') ++ pat ++ b).take pat.length
            = (c :: (a' ++ pat ++ b)).take pat.length := by simp
        rw [he]
        exact hcond.1)),
      ih b hstep]
    simp

theorem placeholderL_length : placeholderL.length = 14 := rfl

/-- C2 counterexample: on `overlapText`, the URL
`http://xurlplaceholder` is among the detected URLs, yet its raw text
still occurs in the masked text handed to word tokenization — and hence
inside a returned token. -/
theorem maskUrls_raw_url_survives_cex :
    ("http://xurlplaceholder".toList) ∈ findallUrls overlapText
    ∧ occursIn ("http://xurlplaceholder".toList) (maskUrls overlapText) = true
    ∧ (tokenize splitOnSpace lemId overlapText).any
        (fun tok => occursIn ("http://xurlplaceholder".toList) tok) = true := by
  refine ⟨by decide, by decide, by decide⟩

/-- C2 (amended): each detected URL is replace-all-substituted by the
placeholder in detection order before word tokenization; overlapping
detected URLs can corrupt or recreate one another, but when the text
contains exactly one detected URL the masked text handed to word
tokenization contains no occurrence of that URL's raw text. -/
theorem maskUrls_single_url_removed {t u : Str} (h : findallUrls t = [u]) :
    occursIn u (maskUrls t) = false := by
  obtain ⟨a, b, hdecomp, hnone, hmatch, hbm⟩ := findallUrls_single t h
  obtain ⟨pre, ρ, hpre, hshape, hρ, hρu, hafter⟩ := matchUrl_self_shape hmatch
  have hune := url_ne_nil pre ρ hpre hshape
  have huchars := url_chars pre ρ hpre hshape hρu
  have hut2 := url_take_two pre ρ hpre hshape
  have hulen := url_length_ge pre ρ hpre hshape hρ
  have hprelen : pre.length ≤ 8 := by
    rcases hpre with rfl | rfl <;> decide
  subst hdecomp
  have huniq := single_url_unique_occ pre ρ hpre hshape hρ hρu hafter hnone hbm
  have hmask : maskUrls (a ++ u ++ b) = a ++ placeholderL ++ b := by
    unfold maskUrls
    rw [h]
    show replaceAll u placeholderL (a ++ u ++ b) = a ++ placeholderL ++ b
    exact replaceAll_single_occ u placeholderL hune a b huniq
  rw [hmask]
  by_contra hocc
  have hocc2 : occursIn u (a ++ placeholderL ++ b) = true := by
    revert hocc
    cases occursIn u (a ++ placeholderL ++ b) <;> simp
  obtain ⟨i, hi⟩ := (occursIn_iff u _).mp hocc2
  rcases Nat.lt_or_ge i a.length with hia | hia
  · -- the occurrence starts inside `a`
    have hsdrop : (a ++ placeholderL ++ b).drop i = a.drop i ++ (placeholderL ++ b) := by
      rw [List.append_assoc]
      exact List.drop_append_of_le_length (le_of_lt hia)
    have htdrop : (a ++ u ++ b).drop i = a.drop i ++ (u ++ b) := by
      rw [List.append_assoc]
      exact List.drop_append_of_le_length (le_of_lt hia)
    have hplen : (a.drop i).length = a.length - i := by simp
    rcases Nat.lt_or_ge (a.length - i) u.length with hsplit | hsplit
    · -- the occurrence would cross into the placeholder
      have hk1 : 1 ≤ a.length - i := by omega
      rw [hsdrop] at hi
      have htk : (a.drop i ++ (placeholderL ++ b)).take u.length
          = a.drop i ++ (placeholderL ++ b).take (u.length - (a.length - i)) := by
        have h1 := take_append_exact (a.drop i) (placeholderL ++ b)
          (u.length - (a.length - i))
        rw [hplen,
          show (a.length - i) + (u.length - (a.length - i)) = u.length by omega] at h1
        exact h1
      rw [htk] at hi
      have hptake : u.take (a.length - i) = a.drop i := by
        have h3 := congrArg (List.take (a.length - i)) hi
        have h4 : (a.drop i
            ++ (placeholderL ++ b).take (u.length - (a.length - i))).take
              (a.length - i) = a.drop i := by
          rw [← hplen]
          exact List.take_left _ _
        rw [h4] at h3
        exact h3.symm
      have hQ : u.drop (a.length - i)
          = (placeholderL ++ b).take (u.length - (a.length - i)) := by
        have h3 := congrArg (List.drop (a.length - i)) hi
        have h4 : (a.drop i
            ++ (placeholderL ++ b).take (u.length - (a.length - i))).drop
              (a.length - i) = (placeholderL ++ b).take (u.length - (a.length - i)) := by
          rw [← hplen]
          exact List.drop_left _ _
        rw [h4] at h3
        exact h3.symm
      obtain ⟨q, hQu⟩ : ∃ q, u.drop (a.length - i) = 'u' :: q := by
        obtain ⟨k, hk2⟩ : ∃ k, u.length - (a.length - i) = k + 1 :=
          ⟨u.length - (a.length - i) - 1, by omega⟩
        refine ⟨(('r' :: 'l' :: 'p' :: 'l' :: 'a' :: 'c' :: 'e' :: 'h' :: 'o'
          :: 'l' :: 'd' :: 'e' :: 'r' :: []) ++ b).take k, ?_⟩
        rw [hQ, hk2]
        rfl
      have hklarge : pre.length ≤ a.length - i := by
        by_contra hklt
        push_neg at hklt
        have hdropu : u.drop (a.length - i) = pre.drop (a.length - i) ++ ρ := by
          rw [hshape]
          exact List.drop_append_of_le_length (le_of_lt hklt)
        rw [hdropu] at hQu
        have hk : a.length - i < pre.length := hklt
        rcases hpre with rfl | rfl
        · have hk7 : a.length - i < 7 := hk
          interval_cases h : (a.length - i) <;> simp [httpPre] at hQu
        · have hk8 : a.length - i < 8 := hk
          interval_cases h : (a.length - i) <;> simp [httpsPre] at hQu
      have hmatchi : matchUrlAt ((a ++ u ++ b).drop i) ≠ none := by
        have hdropeq : (a ++ u ++ b).drop i
            = pre ++ (ρ.take (a.length - i - pre.length) ++ u) ++ b := by
          rw [htdrop, ← hptake, hshape]
          have h2 := take_append_exact pre ρ (a.length - i - pre.length)
          rw [show pre.length + (a.length - i - pre.length) = a.length - i
            by omega] at h2
          rw [h2]
          simp [List.append_assoc]
        rw [hdropeq]
        apply matchUrlAt_append_ne_none pre _ b hpre
        · simp [hune]
        · intro c hc
          rcases List.mem_append.mp hc with hc | hc
          · exact hρu c (List.take_subset _ _ hc)
          · exact huchars c hc
      exact absurd (hnone i hia) hmatchi
    · -- the occurrence would lie entirely inside `a`
      rw [hsdrop] at hi
      have htk : (a.drop i ++ (placeholderL ++ b)).take u.length
          = (a.drop i).take u.length := by
        apply List.take_append_of_le_length
        omega
      rw [htk] at hi
      have hocct : ((a ++ u ++ b).drop i).take u.length = u := by
        rw [htdrop]
        rw [List.take_append_of_le_length (by omega)]
        exact hi
      exact absurd (hnone i hia)
        (matchUrlAt_ne_none_of_take pre ρ hpre hshape hρ hρu _ hocct)
  · rcases Nat.lt_or_ge i (a.length + 14) with hir | hir
    · -- the occurrence would start inside the placeholder
      obtain ⟨j, rfl⟩ : ∃ j, i = a.length + j := ⟨i - a.length, by omega⟩
      have hj : j < 14 := by omega
      have hsdrop : (a ++ placeholderL ++ b).drop (a.length + j)
          = placeholderL.drop j ++ b := by
        rw [List.append_assoc, drop_append_exact a (placeholderL ++ b) j]
        exact List.drop_append_of_le_length (by rw [placeholderL_length]; omega)
      rw [hsdrop] at hi
      have h2 : (placeholderL.drop j ++ b).take 2 = ['h', 't'] := by
        calc (placeholderL.drop j ++ b).take 2
            = ((placeholderL.drop j ++ b).take u.length).take 2 := by
              rw [List.take_take]
              congr 1
              omega
          _ = u.take 2 := by rw [hi]
          _ = ['h', 't'] := hut2
      interval_cases j <;> simp [placeholderL] at h2
    · -- the occurrence would lie inside `b`
      obtain ⟨j, rfl⟩ : ∃ j, i = a.length + 14 + j := ⟨i - (a.length + 14), by omega⟩
      have hsdrop : (a ++ placeholderL ++ b).drop (a.length + 14 + j) = b.drop j := by
        have h1 := drop_append_exact (a ++ placeholderL) b j
        rw [List.length_append, placeholderL_length] at h1
        exact h1
      rw [hsdrop] at hi
      exact absurd (hbm j)
        (matchUrlAt_ne_none_of_take pre ρ hpre hshape hρ hρu _ hi)

theorem maskUrls_single_url_removed_witness :
    occursIn ("http://example.com".toList)
      (maskUrls ("check http://example.com now".toList)) = false :=
  maskUrls_single_url_removed (by decide)

end DisasterResponse
